import Mathlib

/-!
Verification of the data-preprocessing module `src/mlops/src/data.py`.

Strings are modelled as `List Char` (ASCII; Python's Unicode-aware regex
classes are modelled by their ASCII behaviour, which is exact for the
ASCII inputs used throughout).  Each `re.sub` call of `clean_text` is
embedded as an executable scanner that mirrors Python's leftmost,
non-overlapping substitution semantics.  External collaborators (the ray
dataset engine, sklearn's `train_test_split`, the BERT tokenizer) are
modelled as function parameters constrained by the guarantees the spec
assigns to them.
-/

/-- Python `\w` for ASCII text: letters, digits and underscore. -/
def isWordChar (c : Char) : Bool :=
  (97 ≤ c.toNat && c.toNat ≤ 122) || (65 ≤ c.toNat && c.toNat ≤ 90) ||
  (48 ≤ c.toNat && c.toNat ≤ 57) || c.toNat == 95

/-- Python `\s` for ASCII text: space, tab, newline, CR, VT, FF. -/
def isSpaceChar (c : Char) : Bool :=
  c.toNat == 32 || c.toNat == 9 || c.toNat == 10 ||
  c.toNat == 13 || c.toNat == 11 || c.toNat == 12

/-- Lowercase ASCII letter. -/
def isLowerAlpha (c : Char) : Bool := 97 ≤ c.toNat && c.toNat ≤ 122

/-- Lowercase ASCII letter or digit. -/
def isLowerAlnum (c : Char) : Bool :=
  (97 ≤ c.toNat && c.toNat ≤ 122) || (48 ≤ c.toNat && c.toNat ≤ 57)

/-- ASCII alphanumeric, the class `[A-Za-z0-9]` of the fourth substitution. -/
def isAsciiAlnum (c : Char) : Bool :=
  (65 ≤ c.toNat && c.toNat ≤ 90) || (97 ≤ c.toNat && c.toNat ≤ 122) ||
  (48 ≤ c.toNat && c.toNat ≤ 57)

/-- The fixed punctuation class of the third substitution, by char code:
`! " # $ % & ' ( ) * + , - . / : ; < = > ? @ [ \ ] ^ _ ` { | } ~`. -/
def isPunctChar (c : Char) : Bool :=
  c.toNat ∈ [33, 34, 35, 36, 37, 38, 39, 40, 41, 42, 43, 44, 45, 46, 47,
             58, 59, 60, 61, 62, 63, 64, 91, 92, 93, 94, 95, 96, 123, 124, 125, 126]

/-- Python `str.lower` on an ASCII character. -/
def lowerChar (c : Char) : Char :=
  if 65 ≤ c.toNat && c.toNat ≤ 90 then Char.ofNat (c.toNat + 32) else c

/-- Attempt to match the literal word `v` as a prefix of `t`; on success
return the last character of `v` together with the remaining suffix.
An empty `v` never matches (the repo's stopword list has no empty word). -/
def tryOne (v : List Char) (t : List Char) : Option (Char × List Char) :=
  match v, t with
  | [], _ => none
  | _ :: _, [] => none
  | v0 :: vs, c :: t2 =>
    if v0 == c then
      match vs with
      | [] => some (v0, t2)
      | _ :: _ => tryOne vs t2
    else none

/-- The trailing `\b` of the stopword pattern: a word boundary between the
matched word's last character `l` and the remaining suffix `r`. -/
def bAfter (l : Char) (r : List Char) : Bool :=
  isWordChar l != (match r with | [] => false | d :: _ => isWordChar d)

/-- Try one stopword alternative at the current position, including the
trailing word boundary (the leading boundary is checked by the caller). -/
def tryMatch (v : List Char) (t : List Char) : Option (Char × List Char) :=
  match tryOne v t with
  | some (l, r) => if bAfter l r then some (l, r) else none
  | none => none

/-- Python alternation: try the stopword alternatives in list order. -/
def firstStop (sws : List (List Char)) (t : List Char) : Option (Char × List Char) :=
  match sws with
  | [] => none
  | v :: vs =>
    match tryMatch v t with
    | some res => some res
    | none => firstStop vs t

/-- Scanner for `re.sub(r"\b(w1|w2|...)\b\s*", " ", text)`: `p` records
whether the previous character of the original text was a word character
(for the leading `\b`); each step consumes at least one character, so
`fuel = length` suffices. -/
def stopAux (sws : List (List Char)) : Nat → Bool → List Char → List Char
  | _, _, [] => []
  | 0, _, t => t
  | fuel + 1, p, c :: t =>
    if p != isWordChar c then
      match firstStop sws (c :: t) with
      | some (l, r) =>
        ' ' :: stopAux sws fuel
          (if (r.takeWhile isSpaceChar).isEmpty then isWordChar l else false)
          (r.dropWhile isSpaceChar)
      | none => c :: stopAux sws fuel (isWordChar c) t
    else c :: stopAux sws fuel (isWordChar c) t

/-- Stopword removal, step 2 of `clean_text`. -/
def stopSub (sws : List (List Char)) (t : List Char) : List Char :=
  stopAux sws t.length false t

/-- Step 3: surround each character of the fixed punctuation class with
spaces (`re.sub(r"([...])", r" \1 ", text)`). -/
def punctSub : List Char → List Char
  | [] => []
  | c :: t =>
    if isPunctChar c then ' ' :: c :: ' ' :: punctSub t else c :: punctSub t

/-- Scanner for `re.sub("[^A-Za-z0-9]+", " ", text)`: each maximal run of
non-alphanumeric characters becomes a single space. -/
def nonAlnumAux : Nat → List Char → List Char
  | _, [] => []
  | 0, t => t
  | fuel + 1, c :: t =>
    if isAsciiAlnum c then c :: nonAlnumAux fuel t
    else ' ' :: nonAlnumAux fuel (t.dropWhile (fun d => !isAsciiAlnum d))

/-- Step 4 of `clean_text`. -/
def nonAlnumSub (t : List Char) : List Char := nonAlnumAux t.length t

/-- Scanner for `re.sub(" +", " ", text)`: runs of literal spaces collapse
to a single space. -/
def collapseAux : Nat → List Char → List Char
  | _, [] => []
  | 0, t => t
  | fuel + 1, c :: t =>
    if c == ' ' then ' ' :: collapseAux fuel (t.dropWhile (fun d => d == ' '))
    else c :: collapseAux fuel t

/-- Step 5a of `clean_text`. -/
def collapseSub (t : List Char) : List Char := collapseAux t.length t

/-- Python `str.strip()` (ASCII whitespace). -/
def pystrip (t : List Char) : List Char :=
  ((t.dropWhile isSpaceChar).reverse.dropWhile isSpaceChar).reverse

/-- Does `t` start with `http` followed by at least one non-space character
(the shape matched by `http\S+`)? -/
def isHttpStart : List Char → Bool
  | a :: b :: c :: d :: e :: _ =>
    a == 'h' && b == 't' && c == 't' && d == 'p' && !isSpaceChar e
  | _ => false

/-- Scanner for `re.sub(r"http\S+", "", text)`: a match consumes `http`
and the maximal following run of non-space characters, and is deleted. -/
def httpAux : Nat → List Char → List Char
  | _, [] => []
  | 0, t => t
  | fuel + 1, c :: t =>
    if isHttpStart (c :: t) then
      httpAux fuel ((t.drop 3).dropWhile (fun e => !isSpaceChar e))
    else c :: httpAux fuel t

/-- Step 6 of `clean_text`. -/
def httpSub (t : List Char) : List Char := httpAux t.length t

/-- `clean_text` from `src/mlops/src/data.py`: lowercase, remove stopword
words, space out punctuation, delete remaining non-alphanumerics, collapse
spaces, strip, delete `http\S+` tokens — in exactly this order. -/
def clean_text (sws : List (List Char)) (s : List Char) : List Char :=
  httpSub (pystrip (collapseSub (nonAlnumSub (punctSub (stopSub sws (s.map lowerChar))))))

/-- Split a char list at literal spaces (the separators of a cleaned
string); inverse of `joinW` on space-separated word lists. -/
def splitSp : List Char → List (List Char)
  | [] => [[]]
  | c :: t =>
    if c == ' ' then [] :: splitSp t
    else
      match splitSp t with
      | [] => [[c]]
      | w :: ws => (c :: w) :: ws

/-- Join words with single spaces. -/
def joinW : List (List Char) → List Char
  | [] => []
  | w :: ws => w ++ (match ws with | [] => [] | _ :: _ => ' ' :: joinW ws)

/-- Is `pat` a prefix of `t`? -/
def prefixMatch : List Char → List Char → Bool
  | [], _ => true
  | _ :: _, [] => false
  | p :: ps, c :: cs => p == c && prefixMatch ps cs

/-- Does `pat` occur as a contiguous substring of the second argument? -/
def containsSeq (pat : List Char) : List Char → Bool
  | [] => prefixMatch pat []
  | c :: t => prefixMatch pat (c :: t) || containsSeq pat t

/-- Does `t` start with `http` followed by at least one character? -/
def isHttpStart4 : List Char → Bool
  | a :: b :: c :: d :: _ :: _ => a == 'h' && b == 't' && c == 't' && d == 'p'
  | _ => false

/-- Does `t` contain `http` followed by at least one further character? -/
def httpPlus : List Char → Bool
  | [] => false
  | c :: t => isHttpStart4 (c :: t) || httpPlus t

/-- A stopword list of nonempty lowercase-alphabetic words (the shape of
the repo's external `STOPWORDS` configuration). -/
def StopwordsOK (sws : List (List Char)) : Prop :=
  ∀ v ∈ sws, v ≠ [] ∧ ∀ c ∈ v, isLowerAlpha c = true

/-- The words of a string in cleaned canonical form: each nonempty, made of
lowercase ASCII alphanumerics, not a stopword, and not containing `http`
followed by a further character. -/
def wordsOK (sws : List (List Char)) (ws : List (List Char)) : Prop :=
  ∀ w ∈ ws, w ≠ [] ∧ (∀ c ∈ w, isLowerAlnum c = true) ∧ w ∉ sws ∧ httpPlus w = false

/-- A string is canonical when it is empty or splits into canonical words
separated by single spaces with no leading or trailing space. -/
def Canonical (sws : List (List Char)) (t : List Char) : Prop :=
  t = [] ∨ wordsOK sws (splitSp t)

section DataPipeline

variable {R K : Type} [DecidableEq R] [DecidableEq K]

/-- `load_data` from `src/mlops/src/data.py`: shuffle (the seeded ray
shuffle is the external parameter `shuffle`), then, because of Python's
truthiness test `if num_samples`, truncate only when a nonzero sample
count was given. -/
def load_data (shuffle : List R → List R) (ds : List R) (numSamples : Option Nat) :
    List R :=
  let s := shuffle ds
  match numSamples with
  | some n => if n == 0 then s else s.take n
  | none => s

/-- The distinct keys of the dataset, as grouped by the engine's
`groupby(stratify)` (group order is engine-determined and irrelevant to
the claims; first-seen order is used here). -/
def keysOf (k : R → K) (ds : List R) : List K := (ds.map k).dedup

/-- The per-key groups produced by `groupby(stratify)`. -/
def groupsOf (k : R → K) (ds : List R) : List (List R) :=
  (keysOf k ds).map (fun c => ds.filter (fun r => k r == c))

/-- `_add_split` from `stratify_split`: split one group with the external
`train_test_split` (parameter `tts`), tag each row with its split label in
the temporary `_split` column, and concatenate. -/
def addSplit (tts : List R → List R × List R) (g : List R) : List (R × String) :=
  ((tts g).1.map (fun r => (r, "train"))) ++ ((tts g).2.map (fun r => (r, "test")))

/-- `_filter_split`: keep the rows with the given label and drop the
temporary `_split` column (the projection to the bare row). -/
def filterSplit (l : List (R × String)) (lab : String) : List R :=
  (l.filter (fun p => p.2 == lab)).map Prod.fst

/-- `stratify_split` from `src/mlops/src/data.py`: group by the stratify
key, split each group, tag and concatenate, filter the two labels, and
reshuffle both outputs with the engine's seeded shuffle (parameter `sh`,
the same seed is used for both outputs). -/
def stratify_split (tts : List R → List R × List R) (sh : List R → List R)
    (k : R → K) (ds : List R) : List R × List R :=
  let grouped := ((groupsOf k ds).map (addSplit tts)).flatten
  (sh (filterSplit grouped "train"), sh (filterSplit grouped "test"))

end DataPipeline

/-- Pair each element with its index starting at `n` (Python `enumerate`). -/
def idx {α : Type} : Nat → List α → List (Nat × α)
  | _, [] => []
  | n, a :: t => (n, a) :: idx (n + 1) t

/-- `CustomPreprocessor.fit`: `{tag: i for i, tag in enumerate(tags)}`,
as an association list keyed by tag (`tags` are the distinct values that
`ds.unique(column="tag")` returns, hence `Nodup` in the theorems). -/
def fitC2I (tags : List String) : List (String × Nat) :=
  (idx 0 tags).map (fun p => (p.2, p.1))

/-- `CustomPreprocessor.fit`: the inverse mapping
`{v: k for k, v in class_to_index.items()}`, keyed by index. -/
def fitI2C (tags : List String) : List (Nat × String) := idx 0 tags

/-- One row of the input table. -/
structure Row where
  id : Nat
  created_on : String
  title : List Char
  description : List Char
  tag : String

/-- The encoded output of `tokenize`: token ids, attention masks, targets.
An unmapped tag produced a pandas `NaN`, modelled as `none`. -/
structure Encoded where
  ids : List (List Nat)
  masks : List (List Nat)
  targets : List (Option Nat)
deriving DecidableEq

/-- Length of the longest tokenized sequence (`padding="longest"`). -/
def padLen (seqs : List (List Nat)) : Nat :=
  seqs.foldr (fun s m => max s.length m) 0

/-- `tokenize` from `src/mlops/src/data.py`: the pretrained subword
tokenizer is the external parameter `tok` (one id sequence per text); ids
are padded to the batch's longest sequence with the pad id 0, the mask
marks real tokens with 1 and padding with 0, targets are the tag column. -/
def tokenize (tok : List Char → List Nat) (batch : List (List Char × Option Nat)) :
    Encoded :=
  let seqs := batch.map (fun b => tok b.1)
  let L := padLen seqs
  { ids := seqs.map (fun s => s ++ List.replicate (L - s.length) 0)
    masks := seqs.map (fun s => List.replicate s.length 1 ++ List.replicate (L - s.length) 0)
    targets := batch.map (fun b => b.2) }

/-- `preprocess` from `src/mlops/src/data.py`: concatenate title and
description with a space, clean, drop the id and timestamp columns (only
text and tag are passed on), map tags through `class_to_index` (pandas
`.map`: unmapped tags become missing values), and tokenize. -/
def preprocess (tok : List Char → List Nat) (sws : List (List Char))
    (c2i : List (String × Nat)) (df : List Row) : Encoded :=
  tokenize tok (df.map (fun r =>
    (clean_text sws (r.title ++ ' ' :: r.description), List.lookup r.tag c2i)))

/-! ### Helper lemmas -/

theorem mem_le_padLen (s : List Nat) (seqs : List (List Nat)) (h : s ∈ seqs) :
    s.length ≤ padLen seqs := by
  induction seqs with
  | nil => cases h
  | cons a t ih =>
    rcases List.mem_cons.mp h with rfl | hmem
    · exact le_max_left _ _
    · exact le_trans (ih hmem) (le_max_right _ _)

theorem lookup_eq_none_iff (l : List (String × Nat)) (a : String) :
    List.lookup a l = none ↔ ∀ p ∈ l, p.1 ≠ a := by
  induction l with
  | nil => simp [List.lookup]
  | cons e t ih =>
    rcases e with ⟨k, v⟩
    by_cases hak : a = k
    · subst hak
      simp [List.lookup]
    · have hbeq : (a == k) = false := beq_eq_false_iff_ne.mpr hak
      simp [List.lookup, hbeq, ih, Ne.symm hak]

theorem lookup_idx (l : List String) :
    ∀ (n i : Nat) (h : i < l.length),
      List.lookup (n + i) (idx n l) = some (l.get ⟨i, h⟩) := by
  induction l with
  | nil => intro n i h; simp at h
  | cons a t ih =>
    intro n i h
    cases i with
    | zero => simp [idx, List.lookup]
    | succ j =>
      have hne : ((n + (j + 1)) == n) = false := by
        refine beq_eq_false_iff_ne.mpr ?_
        omega
      have harith : n + (j + 1) = (n + 1) + j := by omega
      have hj : j < t.length := by simpa using Nat.lt_of_succ_lt_succ h
      simp only [idx, List.lookup, hne]
      rw [harith, ih (n + 1) j hj]
      simp

theorem lookup_fitC2I (l : List String) :
    ∀ (n i : Nat) (h : i < l.length), l.Nodup →
      List.lookup (l.get ⟨i, h⟩) ((idx n l).map (fun p => (p.2, p.1))) = some (n + i) := by
  induction l with
  | nil => intro n i h; simp at h
  | cons a t ih =>
    intro n i h hnd
    cases i with
    | zero => simp [idx, List.lookup]
    | succ j =>
      have hj : j < t.length := by simpa using Nat.lt_of_succ_lt_succ h
      have hget : (a :: t).get ⟨j + 1, h⟩ = t.get ⟨j, hj⟩ := rfl
      have hmem : t.get ⟨j, hj⟩ ∈ t := List.get_mem t j hj
      have hne : (t.get ⟨j, hj⟩ == a) = false := by
        refine beq_eq_false_iff_ne.mpr ?_
        intro hcontra
        exact (List.nodup_cons.mp hnd).1 (hcontra ▸ hmem)
      simp only [idx, List.map, List.lookup, hget, hne]
      rw [ih (n + 1) j hj (List.nodup_cons.mp hnd).2]
      simp
      omega

theorem count_filter_ite {α : Type} [DecidableEq α] (p : α → Bool) (l : List α) (a : α) :
    List.count a (List.filter p l) = if p a then List.count a l else 0 := by
  induction l with
  | nil => simp
  | cons b t ih =>
    by_cases hb : p b
    · by_cases hab : a = b
      · subst hab; simp [hb, List.count_cons, ih]
      · simp [hb, List.count_cons, ih, hab]
    · by_cases hab : a = b
      · subst hab; simp [hb, List.count_cons, ih]
      · simp [hb, List.count_cons, ih, hab]

theorem sum_map_eq_single {K : Type} (keys : List K) (f : K → Nat) (c : K)
    (hnd : keys.Nodup) (hc : c ∈ keys) (hz : ∀ k2 ∈ keys, k2 ≠ c → f k2 = 0) :
    (keys.map f).sum = f c := by
  induction keys with
  | nil => cases hc
  | cons a t ih =>
    rcases List.mem_cons.mp hc with rfl | hct
    · have hz0 : ∀ x ∈ t.map f, x = 0 := by
        intro x hx
        obtain ⟨k2, hk2, rfl⟩ := List.mem_map.mp hx
        refine hz k2 (List.mem_cons_of_mem _ hk2) ?_
        intro hcontra
        exact (List.nodup_cons.mp hnd).1 (hcontra ▸ hk2)
      simp [List.sum_eq_zero hz0]
    · have ha0 : f a = 0 := by
        refine hz a (List.mem_cons_self _ _) ?_
        intro hcontra
        exact (List.nodup_cons.mp hnd).1 (hcontra ▸ hct)
      have := ih (List.nodup_cons.mp hnd).2 hct
        (fun k2 hk2 => hz k2 (List.mem_cons_of_mem _ hk2))
      simp [ha0, this]

/-- The per-key groups of `groupby` together hold exactly the records of
the dataset, as a multiset. -/
theorem flatten_groupsOf_perm {R K : Type} [DecidableEq R] [DecidableEq K]
    (k : R → K) (ds : List R) : (groupsOf k ds).flatten.Perm ds := by
  rw [List.perm_iff_count]
  intro a
  rw [List.count_flatten]
  simp only [groupsOf, List.map_map]
  have hsummand : ∀ c ∈ keysOf k ds,
      (List.count a ∘ fun c => ds.filter (fun r => k r == c)) c
        = if k a == c then List.count a ds else 0 := by
    intro c _
    exact count_filter_ite _ ds a
  by_cases hmem : a ∈ ds
  · have hkey : k a ∈ keysOf k ds := List.mem_dedup.mpr (List.mem_map_of_mem k hmem)
    rw [List.map_congr_left hsummand]
    have hnd : (keysOf k ds).Nodup := List.nodup_dedup (ds.map k)
    have hz : ∀ k2 ∈ keysOf k ds, k2 ≠ k a →
        (if k a == k2 then List.count a ds else 0) = 0 := by
      intro k2 _ hne
      have : (k a == k2) = false := beq_eq_false_iff_ne.mpr (fun h => hne h.symm)
      simp [this]
    rw [sum_map_eq_single (keysOf k ds)
      (fun c => if k a == c then List.count a ds else 0) (k a) hnd hkey hz]
    simp
  · have hz : List.count a ds = 0 := List.count_eq_zero.mpr hmem
    rw [List.map_congr_left hsummand, hz]
    have : ∀ x ∈ (keysOf k ds).map (fun c => if k a == c then 0 else 0), x = 0 := by
      intro x hx
      obtain ⟨c, _, rfl⟩ := List.mem_map.mp hx
      split <;> rfl
    rw [List.sum_eq_zero this]

theorem flatten_map_append_perm {R : Type} (f g : List R → List R) (G : List (List R)) :
    ((G.map f).flatten ++ (G.map g).flatten).Perm ((G.map (fun x => f x ++ g x)).flatten) := by
  induction G with
  | nil => simp
  | cons x G ih =>
    simp only [List.map_cons, List.flatten_cons]
    have key : ((G.map f).flatten ++ (g x ++ (G.map g).flatten)).Perm
        (g x ++ ((G.map (fun y => f y ++ g y)).flatten)) := by
      have h2 : (((G.map f).flatten ++ g x) ++ (G.map g).flatten).Perm
          ((g x ++ (G.map f).flatten) ++ (G.map g).flatten) :=
        List.Perm.append_right _ List.perm_append_comm
      have h3 : ((g x ++ (G.map f).flatten) ++ (G.map g).flatten).Perm
          (g x ++ ((G.map (fun y => f y ++ g y)).flatten)) := by
        rw [List.append_assoc]
        exact List.Perm.append_left _ ih
      rw [← List.append_assoc]
      exact h2.trans h3
    rw [List.append_assoc, List.append_assoc]
    exact List.Perm.append_left (f x) key

theorem flatten_perm_of_forall {R : Type} (f : List R → List R) (G : List (List R))
    (hf : ∀ g ∈ G, (f g).Perm g) : ((G.map f).flatten).Perm G.flatten := by
  induction G with
  | nil => simp
  | cons x G ih =>
    simp only [List.map_cons, List.flatten_cons]
    exact List.Perm.append (hf x (List.mem_cons_self _ _))
      (ih fun g hg => hf g (List.mem_cons_of_mem _ hg))

theorem filterSplit_addSplit_train {R : Type} (tts : List R → List R × List R)
    (g : List R) : filterSplit (addSplit tts g) "train" = (tts g).1 := by
  unfold filterSplit addSplit
  rw [List.filter_append]
  have h1 : List.filter (fun p => p.2 == "train") ((tts g).1.map (fun r => (r, "train")))
      = (tts g).1.map (fun r => (r, "train")) := by
    induction (tts g).1 with
    | nil => rfl
    | cons a t ih => simp [List.filter_cons, ih]
  have h2 : List.filter (fun p => p.2 == "train") ((tts g).2.map (fun r => (r, "test")))
      = [] := by
    induction (tts g).2 with
    | nil => rfl
    | cons a t ih => simp [List.filter_cons, ih]
  rw [h1, h2, List.append_nil, List.map_map]
  exact List.map_id _

theorem filterSplit_addSplit_test {R : Type} (tts : List R → List R × List R)
    (g : List R) : filterSplit (addSplit tts g) "test" = (tts g).2 := by
  unfold filterSplit addSplit
  rw [List.filter_append]
  have h1 : List.filter (fun p => p.2 == "test") ((tts g).1.map (fun r => (r, "train")))
      = [] := by
    induction (tts g).1 with
    | nil => rfl
    | cons a t ih => simp [List.filter_cons, ih]
  have h2 : List.filter (fun p => p.2 == "test") ((tts g).2.map (fun r => (r, "test")))
      = (tts g).2.map (fun r => (r, "test")) := by
    induction (tts g).2 with
    | nil => rfl
    | cons a t ih => simp [List.filter_cons, ih]
  rw [h1, h2, List.nil_append, List.map_map]
  exact List.map_id _

theorem filterSplit_flatten {R : Type} (L : List (List (R × String))) (lab : String) :
    filterSplit L.flatten lab = (L.map (fun l => filterSplit l lab)).flatten := by
  simp only [filterSplit, List.filter_flatten, List.map_flatten, List.map_map]
  rfl

/-- The train output before reshuffling is the concatenation of the
per-group train parts. -/
theorem train0_eq {R K : Type} [DecidableEq K] (tts : List R → List R × List R)
    (k : R → K) (ds : List R) :
    filterSplit ((List.map (addSplit tts) (groupsOf k ds)).flatten) "train"
      = ((groupsOf k ds).map (fun g => (tts g).1)).flatten := by
  rw [filterSplit_flatten, List.map_map]
  refine congrArg List.flatten (List.map_congr_left ?_)
  intro g _
  exact filterSplit_addSplit_train tts g

theorem test0_eq {R K : Type} [DecidableEq K] (tts : List R → List R × List R)
    (k : R → K) (ds : List R) :
    filterSplit ((List.map (addSplit tts) (groupsOf k ds)).flatten) "test"
      = ((groupsOf k ds).map (fun g => (tts g).2)).flatten := by
  rw [filterSplit_flatten, List.map_map]
  refine congrArg List.flatten (List.map_congr_left ?_)
  intro g _
  exact filterSplit_addSplit_test tts g

/-! ### Claim C6: the split is a partition -/

/-- C6: whenever the external `train_test_split` returns a permutation of
each group (the guarantee sklearn provides) and the seeded reshuffle is a
permutation, the two outputs of `stratify_split` together are a
permutation of the input dataset: every record appears exactly as often
as in the input, none dropped, none duplicated.  (The temporary `_split`
label is projected away by `filterSplit`, mirroring the `drop` of the
`_split` column, so neither output carries it.) -/
theorem stratify_split_partition {R K : Type} [DecidableEq R] [DecidableEq K]
    (tts : List R → List R × List R) (sh : List R → List R) (k : R → K) (ds : List R)
    (htts : ∀ g ∈ groupsOf k ds, ((tts g).1 ++ (tts g).2).Perm g)
    (hsh : ∀ l, (sh l).Perm l) :
    ((stratify_split tts sh k ds).1 ++ (stratify_split tts sh k ds).2).Perm ds := by
  simp only [stratify_split]
  refine (List.Perm.append (hsh _) (hsh _)).trans ?_
  rw [train0_eq, test0_eq]
  refine (flatten_map_append_perm _ _ _).trans ?_
  refine (flatten_perm_of_forall _ _ htts).trans ?_
  exact flatten_groupsOf_perm k ds

/-- C6 witness: five records keyed by parity, with a concrete splitter
and the identity shuffle. -/
theorem stratify_split_partition_witness :
    ((stratify_split (fun g : List Nat => (g.drop 1, g.take 1)) (fun l => l)
        (fun r => r % 2) [1, 2, 3, 4, 5]).1
      ++ (stratify_split (fun g : List Nat => (g.drop 1, g.take 1)) (fun l => l)
        (fun r => r % 2) [1, 2, 3, 4, 5]).2).Perm [1, 2, 3, 4, 5] :=
  stratify_split_partition (fun g => (g.drop 1, g.take 1)) (fun l => l)
    (fun r => r % 2) [1, 2, 3, 4, 5] (by decide) (fun l => List.Perm.refl l)

/-! ### Claim C5: the split preserves class proportions -/

/-- C5: for every class value `c`, when the external `train_test_split`
permutes each group and sizes its test part as `⌈|g| * test_size⌉`
(sklearn's rounding for a float `test_size`), the number of `c`-records in
the train output is `n_c - ⌈n_c * test_size⌉` where `n_c` is the number of
`c`-records in the input: the train fraction equals `1 - test_size` up to
the integer rounding performed independently within that class's group. -/
theorem stratify_split_proportions {R K : Type} [DecidableEq R] [DecidableEq K]
    (ts : ℚ) (tts : List R → List R × List R) (sh : List R → List R)
    (k : R → K) (ds : List R)
    (htts : ∀ g ∈ groupsOf k ds, ((tts g).1 ++ (tts g).2).Perm g
      ∧ (tts g).2.length = (⌈(g.length : ℚ) * ts⌉).toNat)
    (hsh : ∀ l, (sh l).Perm l) (c : K) :
    ((stratify_split tts sh k ds).1.filter (fun r => k r == c)).length
      = (ds.filter (fun r => k r == c)).length
        - (⌈((ds.filter (fun r => k r == c)).length : ℚ) * ts⌉).toNat := by
  simp only [stratify_split]
  have hperm : ((sh (filterSplit ((List.map (addSplit tts) (groupsOf k ds)).flatten)
      "train")).filter (fun r => k r == c)).length
      = ((filterSplit ((List.map (addSplit tts) (groupsOf k ds)).flatten)
      "train").filter (fun r => k r == c)).length :=
    (List.Perm.filter _ (hsh _)).length_eq
  have hflat : ∀ (G : List (List R)) (f : List R → List R),
      ((((G.map f).flatten)).filter (fun r => k r == c)).length
        = (G.map (fun g => ((f g).filter (fun r => k r == c)).length)).sum := by
    intro G f
    rw [List.filter_flatten, List.map_map, List.length_flatten, List.map_map]
    rfl
  rw [hperm, train0_eq, hflat]
  simp only [groupsOf, List.map_map]
  have hsummand : ∀ c2 ∈ keysOf k ds,
      ((fun g => (((tts g).1).filter (fun r => k r == c)).length) ∘
          fun c2 => ds.filter (fun r => k r == c2)) c2
        = if c2 == c
          then (ds.filter (fun r => k r == c)).length
            - (⌈((ds.filter (fun r => k r == c)).length : ℚ) * ts⌉).toNat
          else 0 := by
    intro c2 hc2
    have hg : ds.filter (fun r => k r == c2) ∈ groupsOf k ds :=
      List.mem_map_of_mem _ hc2
    obtain ⟨hp, hlen⟩ := htts _ hg
    have hmem_tr : ∀ r ∈ (tts (ds.filter (fun r => k r == c2))).1,
        (k r == c2) = true := by
      intro r hr
      have : r ∈ ds.filter (fun r => k r == c2) :=
        (List.Perm.mem_iff hp).mp (List.mem_append_left _ hr)
      exact (List.mem_filter.mp this).2
    have hlensum : (tts (ds.filter (fun r => k r == c2))).1.length
        + (tts (ds.filter (fun r => k r == c2))).2.length
        = (ds.filter (fun r => k r == c2)).length := by
      have := hp.length_eq
      simpa [List.length_append] using this
    by_cases hcc : c2 = c
    · subst hcc
      have hfeq : ((tts (ds.filter (fun r => k r == c2))).1).filter
          (fun r => k r == c2) = (tts (ds.filter (fun r => k r == c2))).1 :=
        List.filter_eq_self.mpr hmem_tr
      simp only [Function.comp, hfeq, beq_self_eq_true, if_true]
      omega
    · have hbeq : (c2 == c) = false := beq_eq_false_iff_ne.mpr hcc
      have hfeq : ((tts (ds.filter (fun r => k r == c2))).1).filter
          (fun r => k r == c) = [] := by
        refine List.filter_eq_nil_iff.mpr ?_
        intro r hr
        have h1 := hmem_tr r hr
        have h2 : k r = c2 := by simpa using h1
        simp [h2, hcc]
      simp [Function.comp, hfeq, hbeq]
  rw [List.map_congr_left hsummand]
  by_cases hck : c ∈ keysOf k ds
  · have hnd : (keysOf k ds).Nodup := List.nodup_dedup (ds.map k)
    have hz : ∀ k2 ∈ keysOf k ds, k2 ≠ c →
        (if k2 == c
          then (ds.filter (fun r => k r == c)).length
            - (⌈((ds.filter (fun r => k r == c)).length : ℚ) * ts⌉).toNat
          else 0) = 0 := by
      intro k2 _ hne
      simp [beq_eq_false_iff_ne.mpr hne]
    rw [sum_map_eq_single (keysOf k ds)
      (fun c2 => if c2 == c
        then (ds.filter (fun r => k r == c)).length
          - (⌈((ds.filter (fun r => k r == c)).length : ℚ) * ts⌉).toNat
        else 0) c hnd hck hz]
    simp
  · have hnil : ds.filter (fun r => k r == c) = [] := by
      refine List.filter_eq_nil_iff.mpr ?_
      intro r hr
      intro hcontra
      have : k r = c := by simpa using hcontra
      exact hck (this ▸ List.mem_dedup.mpr (List.mem_map_of_mem k hr))
    have hzero : ∀ x ∈ (keysOf k ds).map (fun c2 =>
        if c2 == c
        then (ds.filter (fun r => k r == c)).length
          - (⌈((ds.filter (fun r => k r == c)).length : ℚ) * ts⌉).toNat
        else 0), x = 0 := by
      intro x hx
      obtain ⟨c2, hc2, rfl⟩ := List.mem_map.mp hx
      have : (c2 == c) = false := by
        refine beq_eq_false_iff_ne.mpr ?_
        intro hcontra
        exact hck (hcontra ▸ hc2)
      simp [this, hnil]
    rw [List.sum_eq_zero hzero, hnil]
    simp

/-- C5 witness: five records keyed by parity, split fraction 1/2, a
concrete splitter taking the ceiling-half of each group as the test part,
identity shuffle, class value 1. -/
theorem stratify_split_proportions_witness :
    ((stratify_split
        (fun g : List Nat => (g.drop ((g.length + 1) / 2), g.take ((g.length + 1) / 2)))
        (fun l => l) (fun r => r % 2) [1, 2, 3, 4, 5]).1.filter
        (fun r => r % 2 == 1)).length
      = ([1, 2, 3, 4, 5].filter (fun r : Nat => r % 2 == 1)).length
        - (⌈(([1, 2, 3, 4, 5].filter (fun r : Nat => r % 2 == 1)).length : ℚ)
            * (1 / 2)⌉).toNat :=
  stratify_split_proportions (1 / 2)
    (fun g : List Nat => (g.drop ((g.length + 1) / 2), g.take ((g.length + 1) / 2)))
    (fun l => l) (fun r => r % 2) [1, 2, 3, 4, 5]
    (by
      intro g hg
      have hG : groupsOf (fun r : Nat => r % 2) [1, 2, 3, 4, 5] = [[2, 4], [1, 3, 5]] := by
        decide
      rw [hG] at hg
      simp only [List.mem_cons, List.not_mem_nil, or_false] at hg
      rcases hg with rfl | rfl
      · refine ⟨by decide, ?_⟩
        show (1 : Nat) = (⌈((2 : Nat) : ℚ) * (1 / 2)⌉).toNat
        have h : ((2 : Nat) : ℚ) * (1 / 2) = 1 := by norm_num
        rw [h, Int.ceil_one]
        rfl
      · refine ⟨by decide, ?_⟩
        show (2 : Nat) = (⌈((3 : Nat) : ℚ) * (1 / 2)⌉).toNat
        have h : ((3 : Nat) : ℚ) * (1 / 2) = 3 / 2 := by norm_num
        have h2 : ⌈(3 / 2 : ℚ)⌉ = 2 := by
          rw [Int.ceil_eq_iff]
          norm_num
        rw [h, h2]
        rfl)
    (fun l => List.Perm.refl l) 1

/-- C1 counterexample: with the stopword list `["a"]` and input `"a_b"`,
one cleaning pass yields `"a b"` (the underscore is a regex word
character, so `\ba\b` does not match, but the underscore is then spaced
out and deleted, re-exposing the stopword), while a second pass yields
`"b"`.  So `clean_text (clean_text s) ≠ clean_text s`. -/
theorem clean_text_not_idempotent :
    clean_text ["a".data] (clean_text ["a".data] "a_b".data)
      ≠ clean_text ["a".data] "a_b".data := by decide

/-! ### Claim C2: the worked example -/

/-- C2 counterexample: for the input `"Hi! Please Give me some text."`
and the stopword set `{"please"}` (a set containing "please"), the
punctuation character `'!'` of the input does not appear in the output at
all — so it is not a space-separated token of the output, contradicting
the claim's punctuation part. -/
theorem clean_text_punct_deleted :
    ¬ ('!' ∈ clean_text ["please".data] "Hi! Please Give me some text.".data) := by
  decide

/-- C2 amended: for the input `"Hi! Please Give me some text."` and the
stopword set `{"please"}`, the cleaned output is `"hi give me some
text"`: it contains no stopword of the set as a whole-word token, and no
character of the fixed punctuation set appears in it — the
`[^A-Za-z0-9]+` pass deletes the punctuation rather than keeping it
space-separated. -/
theorem clean_text_example_cleaned :
    clean_text ["please".data] "Hi! Please Give me some text.".data
        = "hi give me some text".data
      ∧ "please".data ∉ splitSp (clean_text ["please".data] "Hi! Please Give me some text.".data)
      ∧ ∀ c ∈ clean_text ["please".data] "Hi! Please Give me some text.".data,
          isPunctChar c = false := by
  refine ⟨by decide, by decide, by decide⟩

/-! ### Claim C3: URL stripping -/

/-- C3: for any stopword list that leaves the two inputs unchanged in the
stopword-removal stage, cleaning `"visit http://example.com now"` yields
`"visit http example com now"`, in which the URL substring
`"http://example.com"` does not occur (the punctuation passes shattered
it before the `http\S+` pass ran, exactly as the spec's ordering note
describes); and the bare token `"http"`, having no following non-space
character, is left unaffected. -/
theorem clean_text_url (sws : List (List Char))
    (h1 : stopSub sws "visit http://example.com now".data
        = "visit http://example.com now".data)
    (h2 : stopSub sws "http".data = "http".data) :
    containsSeq "http://example.com".data
        (clean_text sws "visit http://example.com now".data) = false
      ∧ clean_text sws "visit http://example.com now".data
          = "visit http example com now".data
      ∧ clean_text sws "http".data = "http".data := by
  have e1 : ("visit http://example.com now".data).map lowerChar
      = "visit http://example.com now".data := by decide
  have e2 : ("http".data).map lowerChar = "http".data := by decide
  unfold clean_text
  rw [e1, e2, h1, h2]
  refine ⟨by decide, by decide, by decide⟩

/-- C3 witness: instantiated at the concrete stopword list `["please"]`. -/
theorem clean_text_url_witness :
    containsSeq "http://example.com".data
        (clean_text ["please".data] "visit http://example.com now".data) = false
      ∧ clean_text ["please".data] "visit http://example.com now".data
          = "visit http example com now".data
      ∧ clean_text ["please".data] "http".data = "http".data :=
  clean_text_url ["please".data] (by decide) (by decide)

/-! ### Claim C4: load_data -/

/-- C4 counterexample: the sample count 0 is given and the source `[7]`
has at least 0 records, but `load_data` returns all 1 records rather than
exactly 0 — Python's `if num_samples` treats the count 0 like `None`.
(The seeded shuffle is instantiated with the identity permutation, the
only permutation of a one-element dataset.) -/
theorem load_data_zero_cex :
    ¬ ((load_data (fun l : List Nat => l) [7] (some 0)).length = 0) := by decide

/-- C4 amended: for every source dataset, every shuffle that permutes it
(the seeded ray shuffle), and every positive sample count not exceeding
the record count, `load_data` returns exactly that many records, namely a
truncation of the shuffled dataset; when no sample count is given, the
whole shuffled dataset is returned. -/
theorem load_data_samples {R : Type} (shuffle : List R → List R) (ds : List R)
    (n : Nat) (hsh : ∀ l, (shuffle l).Perm l) (hn : n ≠ 0) (hle : n ≤ ds.length) :
    load_data shuffle ds (some n) = (shuffle ds).take n
      ∧ (load_data shuffle ds (some n)).length = n
      ∧ load_data shuffle ds none = shuffle ds
      ∧ (load_data shuffle ds none).length = ds.length := by
  have hbeq : (n == 0) = false := beq_eq_false_iff_ne.mpr hn
  have hlen : (shuffle ds).length = ds.length := (hsh ds).length_eq
  refine ⟨by simp [load_data, hbeq], ?_, rfl, by simp [load_data, hlen]⟩
  simp only [load_data, hbeq]
  simp [List.length_take, hlen]
  omega

/-- C4 witness: three records, sample count 2, identity shuffle. -/
theorem load_data_samples_witness :
    load_data (fun l : List Nat => l) [5, 6, 7] (some 2)
        = ((fun l : List Nat => l) [5, 6, 7]).take 2
      ∧ (load_data (fun l : List Nat => l) [5, 6, 7] (some 2)).length = 2
      ∧ load_data (fun l : List Nat => l) [5, 6, 7] none = (fun l : List Nat => l) [5, 6, 7]
      ∧ (load_data (fun l : List Nat => l) [5, 6, 7] none).length = 3 :=
  load_data_samples (fun l => l) [5, 6, 7] 2 (fun l => List.Perm.refl l)
    (by decide) (by decide)

/-! ### Claim C7: the fitted class mapping is a bijection -/

/-- C7: after `fit` on the distinct observed tags, `class_to_index` sends
the i-th tag to the dense index i and `index_to_class` is its exact
inverse: for every index i in `[0, n)` the two lookups round-trip, and
every observed class is one of the indexed tags. -/
theorem fit_bijection (tags : List String) (h : tags.Nodup) :
    (∀ (i : Nat) (hi : i < tags.length),
        List.lookup (tags.get ⟨i, hi⟩) (fitC2I tags) = some i
          ∧ List.lookup i (fitI2C tags) = some (tags.get ⟨i, hi⟩))
      ∧ ∀ c ∈ tags, ∃ i, ∃ hi : i < tags.length, tags.get ⟨i, hi⟩ = c := by
  constructor
  · intro i hi
    constructor
    · have := lookup_fitC2I tags 0 i hi h
      simpa [fitC2I] using this
    · have := lookup_idx tags 0 i hi
      simpa [fitI2C] using this
  · intro c hc
    obtain ⟨⟨i, hi⟩, rfl⟩ := List.mem_iff_get.mp hc
    exact ⟨i, hi, rfl⟩

/-- C7 witness: the class list `["a", "b"]` at index 1. -/
theorem fit_bijection_witness :
    List.lookup "b" (fitC2I ["a", "b"]) = some 1
      ∧ List.lookup 1 (fitI2C ["a", "b"]) = some "b" :=
  (fit_bijection ["a", "b"] (by decide)).1 1 (by decide)

/-! ### Claim C8: encoded batch shapes -/

/-- C8: for every batch, the encoded ids, masks and targets have leading
dimension equal to the number of records, and ids and masks have
identical full shape: every row of both has the length of the batch's
longest tokenized sequence. -/
theorem preprocess_shapes (tok : List Char → List Nat) (sws : List (List Char))
    (c2i : List (String × Nat)) (df : List Row) :
    (preprocess tok sws c2i df).ids.length = df.length
      ∧ (preprocess tok sws c2i df).masks.length = df.length
      ∧ (preprocess tok sws c2i df).targets.length = df.length
      ∧ (∀ p ∈ (preprocess tok sws c2i df).ids,
          p.length = padLen (df.map (fun r =>
            tok (clean_text sws (r.title ++ ' ' :: r.description)))))
      ∧ ∀ q ∈ (preprocess tok sws c2i df).masks,
          q.length = padLen (df.map (fun r =>
            tok (clean_text sws (r.title ++ ' ' :: r.description)))) := by
  have hseqs : (df.map (fun r =>
        (clean_text sws (r.title ++ ' ' :: r.description), List.lookup r.tag c2i))).map
        (fun b => tok b.1)
      = df.map (fun r => tok (clean_text sws (r.title ++ ' ' :: r.description))) := by
    simp [List.map_map]
  refine ⟨?_, ?_, ?_, ?_, ?_⟩
  · simp [preprocess, tokenize]
  · simp [preprocess, tokenize]
  · simp [preprocess, tokenize]
  · intro p hp
    simp only [preprocess, tokenize, hseqs] at hp
    obtain ⟨s, hs, rfl⟩ := List.mem_map.mp hp
    have hle := mem_le_padLen s _ hs
    simp [List.length_append, List.length_replicate]
    omega
  · intro q hq
    simp only [preprocess, tokenize, hseqs] at hq
    obtain ⟨s, hs, rfl⟩ := List.mem_map.mp hq
    have hle := mem_le_padLen s _ hs
    simp [List.length_append, List.length_replicate]
    omega

/-- C8 witness: a two-record batch with sequences of lengths 1 and 3. -/
theorem preprocess_shapes_witness :
    (preprocess (fun t => List.replicate t.length 9) [] []
        [⟨1, "t0", "a".data, "b".data, "x"⟩, ⟨2, "t1", "c d".data, "e".data, "y"⟩]).ids.length = 2
      ∧ (preprocess (fun t => List.replicate t.length 9) [] []
        [⟨1, "t0", "a".data, "b".data, "x"⟩, ⟨2, "t1", "c d".data, "e".data, "y"⟩]).masks.length = 2
      ∧ (preprocess (fun t => List.replicate t.length 9) [] []
        [⟨1, "t0", "a".data, "b".data, "x"⟩, ⟨2, "t1", "c d".data, "e".data, "y"⟩]).targets.length = 2
      ∧ (∀ p ∈ (preprocess (fun t => List.replicate t.length 9) [] []
          [⟨1, "t0", "a".data, "b".data, "x"⟩, ⟨2, "t1", "c d".data, "e".data, "y"⟩]).ids,
          p.length = padLen ([⟨1, "t0", "a".data, "b".data, "x"⟩,
            ⟨2, "t1", "c d".data, "e".data, "y"⟩].map (fun r : Row =>
            (fun t => List.replicate t.length 9) (clean_text [] (r.title ++ ' ' :: r.description)))))
      ∧ ∀ q ∈ (preprocess (fun t => List.replicate t.length 9) [] []
          [⟨1, "t0", "a".data, "b".data, "x"⟩, ⟨2, "t1", "c d".data, "e".data, "y"⟩]).masks,
          q.length = padLen ([⟨1, "t0", "a".data, "b".data, "x"⟩,
            ⟨2, "t1", "c d".data, "e".data, "y"⟩].map (fun r : Row =>
            (fun t => List.replicate t.length 9) (clean_text [] (r.title ++ ' ' :: r.description)))) :=
  preprocess_shapes (fun t => List.replicate t.length 9) [] []
    [⟨1, "t0", "a".data, "b".data, "x"⟩, ⟨2, "t1", "c d".data, "e".data, "y"⟩]

/-! ### Claim C9: unmapped tags become missing targets -/

/-- C9: `preprocess` is total — every batch is encoded — and the target of
each record is exactly the lookup of its tag in the supplied mapping: a
tag absent from the mapping yields the missing value `none` (the pandas
`NaN`), a mapped tag yields its mapped integer index. -/
theorem preprocess_unmapped_targets (tok : List Char → List Nat)
    (sws : List (List Char)) (c2i : List (String × Nat)) (df : List Row) :
    (preprocess tok sws c2i df).targets = df.map (fun r => List.lookup r.tag c2i)
      ∧ ∀ t : String, (List.lookup t c2i = none ↔ ∀ p ∈ c2i, p.1 ≠ t) := by
  constructor
  · simp [preprocess, tokenize, List.map_map]
  · intro t
    exact lookup_eq_none_iff c2i t

/-! ### Claim C10: preprocess ignores the id and timestamp columns -/

/-- C10: two batches that agree record-wise on title, description and tag
— whatever their id and created_on columns hold — are encoded to
identical outputs: `preprocess` never reads the identifier or timestamp
columns. -/
theorem preprocess_ignores_metadata (tok : List Char → List Nat)
    (sws : List (List Char)) (c2i : List (String × Nat)) (df1 df2 : List Row)
    (h : df1.map (fun r => (r.title, r.description, r.tag))
        = df2.map (fun r => (r.title, r.description, r.tag))) :
    preprocess tok sws c2i df1 = preprocess tok sws c2i df2 := by
  have key : ∀ df : List Row,
      df.map (fun r => (clean_text sws (r.title ++ ' ' :: r.description),
        List.lookup r.tag c2i))
      = (df.map (fun r => (r.title, r.description, r.tag))).map
        (fun p => (clean_text sws (p.1 ++ ' ' :: p.2.1), List.lookup p.2.2 c2i)) := by
    intro df
    simp [List.map_map]
  unfold preprocess
  rw [key df1, key df2, h]

/-- C10 witness: two one-record batches differing only in id and
created_on. -/
theorem preprocess_ignores_metadata_witness :
    preprocess (fun _ => []) [] [("x", 0)] [⟨1, "2020-01-01", "a".data, "b".data, "x"⟩]
      = preprocess (fun _ => []) [] [("x", 0)] [⟨2, "2021-12-31", "a".data, "b".data, "x"⟩] :=
  preprocess_ignores_metadata (fun _ => []) [] [("x", 0)]
    [⟨1, "2020-01-01", "a".data, "b".data, "x"⟩]
    [⟨2, "2021-12-31", "a".data, "b".data, "x"⟩] rfl

/-! ### Canonical-form identity: character-class facts -/

theorem lowerAlnum_wordChar {c : Char} (h : isLowerAlnum c = true) :
    isWordChar c = true := by
  simp only [isLowerAlnum, Bool.or_eq_true, Bool.and_eq_true, decide_eq_true_eq] at h
  simp only [isWordChar, Bool.or_eq_true, Bool.and_eq_true, decide_eq_true_eq,
    Nat.beq_eq_true_eq]
  omega

theorem lowerAlnum_not_space {c : Char} (h : isLowerAlnum c = true) :
    isSpaceChar c = false := by
  simp only [isLowerAlnum, Bool.or_eq_true, Bool.and_eq_true, decide_eq_true_eq] at h
  simp only [isSpaceChar, Bool.or_eq_false_iff, beq_eq_false_iff_ne, ne_eq]
  omega

theorem lowerAlnum_not_punct {c : Char} (h : isLowerAlnum c = true) :
    isPunctChar c = false := by
  simp only [isLowerAlnum, Bool.or_eq_true, Bool.and_eq_true, decide_eq_true_eq] at h
  simp only [isPunctChar, List.mem_cons, List.not_mem_nil, or_false,
    decide_eq_false_iff_not]
  push_neg
  omega

theorem lowerAlnum_asciiAlnum {c : Char} (h : isLowerAlnum c = true) :
    isAsciiAlnum c = true := by
  simp only [isLowerAlnum, Bool.or_eq_true, Bool.and_eq_true, decide_eq_true_eq] at h
  simp only [isAsciiAlnum, Bool.or_eq_true, Bool.and_eq_true, decide_eq_true_eq]
  omega

theorem lowerAlnum_lowerChar {c : Char} (h : isLowerAlnum c = true) :
    lowerChar c = c := by
  simp only [isLowerAlnum, Bool.or_eq_true, Bool.and_eq_true, decide_eq_true_eq] at h
  simp only [lowerChar, Bool.and_eq_true, decide_eq_true_eq]
  rw [if_neg]
  simp only [Bool.and_eq_true, decide_eq_true_eq, not_and]
  omega

theorem lowerAlnum_ne_space {c : Char} (h : isLowerAlnum c = true) :
    (c == ' ') = false := by
  simp only [isLowerAlnum, Bool.or_eq_true, Bool.and_eq_true, decide_eq_true_eq] at h
  refine beq_eq_false_iff_ne.mpr ?_
  intro hcontra
  subst hcontra
  simp at h

theorem lowerAlpha_lowerAlnum {c : Char} (h : isLowerAlpha c = true) :
    isLowerAlnum c = true := by
  simp only [isLowerAlpha, Bool.and_eq_true, decide_eq_true_eq] at h
  simp only [isLowerAlnum, Bool.or_eq_true, Bool.and_eq_true, decide_eq_true_eq]
  omega

theorem lowerAlpha_ne_space {c : Char} (h : isLowerAlpha c = true) :
    (c == ' ') = false :=
  lowerAlnum_ne_space (lowerAlpha_lowerAlnum h)

theorem map_id_of_mem {f : Char → Char} (t : List Char) (h : ∀ c ∈ t, f c = c) :
    t.map f = t := by
  induction t with
  | nil => rfl
  | cons c t ih =>
    simp only [List.map_cons, h c (List.mem_cons_self c t)]
    rw [ih fun d hd => h d (List.mem_cons_of_mem _ hd)]

/-! ### splitSp and joinW -/

theorem splitSp_ne_nil (t : List Char) : splitSp t ≠ [] := by
  cases t with
  | nil => simp [splitSp]
  | cons c t =>
    simp only [splitSp]
    by_cases hc : c == ' '
    · simp [hc]
    · simp only [hc, if_false]
      cases splitSp t <;> simp

theorem joinW_splitSp (t : List Char) : joinW (splitSp t) = t := by
  induction t with
  | nil => rfl
  | cons c t ih =>
    by_cases hc : c == ' '
    · have hceq : c = ' ' := by simpa using hc
      subst hceq
      obtain ⟨w, ws, hws⟩ := List.exists_cons_of_ne_nil (splitSp_ne_nil t)
      simp only [splitSp, beq_self_eq_true, if_true, hws, joinW]
      rw [hws] at ih
      simpa [joinW] using ih
    · simp only [splitSp, hc, if_false]
      obtain ⟨w, ws, hws⟩ := List.exists_cons_of_ne_nil (splitSp_ne_nil t)
      rw [hws] at ih ⊢
      simp only [joinW] at ih ⊢
      simp [ih]

theorem mem_joinW {c : Char} {ws : List (List Char)} (h : c ∈ joinW ws) :
    (∃ w ∈ ws, c ∈ w) ∨ c = ' ' := by
  induction ws with
  | nil => simp [joinW] at h
  | cons w ws ih =>
    simp only [joinW] at h
    rcases List.mem_append.mp h with hw | hrest
    · exact Or.inl ⟨w, List.mem_cons_self w ws, hw⟩
    · cases ws with
      | nil => simp at hrest
      | cons v ws2 =>
        rcases List.mem_cons.mp hrest with rfl | hmem
        · exact Or.inr rfl
        · rcases ih hmem with ⟨u, hu, hcu⟩ | hsp
          · exact Or.inl ⟨u, List.mem_cons_of_mem _ hu, hcu⟩
          · exact Or.inr hsp

/-- The first character of `joinW (w :: ws)` is a character of `w` when
`w` is nonempty. -/
theorem joinW_cons_head {w : List Char} {ws : List (List Char)} (hw : w ≠ []) :
    ∃ c rest, joinW (w :: ws) = c :: rest ∧ c ∈ w := by
  obtain ⟨c, w2, rfl⟩ := List.exists_cons_of_ne_nil hw
  exact ⟨c, _, rfl, List.mem_cons_self c w2⟩

/-! ### No stopword matches inside canonical strings -/

theorem tryOne_some : ∀ (v t : List Char) (l : Char) (r : List Char),
    tryOne v t = some (l, r) → v ≠ [] ∧ t = v ++ r ∧ l ∈ v := by
  intro v
  induction v with
  | nil => intro t l r h; simp [tryOne] at h
  | cons v0 vs ih =>
    intro t l r h
    cases t with
    | nil => simp [tryOne] at h
    | cons c t2 =>
      by_cases hvc : (v0 == c) = true
      · have hv0c : v0 = c := by simpa using hvc
        subst hv0c
        cases vs with
        | nil =>
          simp only [tryOne, beq_self_eq_true, if_true, Option.some.injEq,
            Prod.mk.injEq] at h
          obtain ⟨hl, hr⟩ := h
          subst hl
          subst hr
          exact ⟨by simp, rfl, List.mem_cons_self _ _⟩
        | cons v1 vs2 =>
          simp only [tryOne, beq_self_eq_true, if_true] at h
          obtain ⟨hne, ht2, hl⟩ := ih t2 l r h
          subst ht2
          exact ⟨by simp, rfl, List.mem_cons_of_mem _ hl⟩
      · have hvcf : (v0 == c) = false := by simpa using hvc
        simp [tryOne, hvcf] at h

theorem firstStop_space_none (sws : List (List Char)) (hsw : StopwordsOK sws)
    (rest : List Char) : firstStop sws (' ' :: rest) = none := by
  induction sws with
  | nil => rfl
  | cons v vs ih =>
    obtain ⟨hvne, hvchars⟩ := hsw v (List.mem_cons_self v vs)
    have htail : StopwordsOK vs := fun u hu => hsw u (List.mem_cons_of_mem _ hu)
    obtain ⟨v0, v2, rfl⟩ := List.exists_cons_of_ne_nil hvne
    have hv0 : isLowerAlpha v0 = true := hvchars v0 (List.mem_cons_self _ _)
    have hbeq : (v0 == ' ') = false := lowerAlpha_ne_space hv0
    have htry : tryOne (v0 :: v2) (' ' :: rest) = none := by
      simp [tryOne, hbeq]
    simp [firstStop, tryMatch, htry, ih htail]

theorem firstStop_word_none (sws : List (List Char)) (hsw : StopwordsOK sws)
    (w rest : List Char) (hw2 : ∀ c ∈ w, isLowerAlnum c = true)
    (hw3 : w ∉ sws) (hrest : rest = [] ∨ ∃ r2, rest = ' ' :: r2) :
    firstStop sws (w ++ rest) = none := by
  induction sws with
  | nil => rfl
  | cons v vs ih =>
    obtain ⟨hvne, hvchars⟩ := hsw v (List.mem_cons_self v vs)
    have htail : StopwordsOK vs := fun u hu => hsw u (List.mem_cons_of_mem _ hu)
    have hw3t : w ∉ vs := fun hmem => hw3 (List.mem_cons_of_mem _ hmem)
    have hwv : w ≠ v := fun heq => hw3 (heq ▸ List.mem_cons_self v vs)
    have hmatch : tryMatch v (w ++ rest) = none := by
      cases htry : tryOne v (w ++ rest) with
      | none => simp [tryMatch, htry]
      | some lr =>
        obtain ⟨l, r⟩ := lr
        obtain ⟨hvne2, heq, hlmem⟩ := tryOne_some v (w ++ rest) l r htry
        rcases List.append_eq_append_iff.mp heq with ⟨a2, hva, hrest2⟩ | ⟨c2, hwv2, hr⟩
        · cases a2 with
          | nil =>
            have hweq : w = v := by simpa using hva.symm
            exact absurd hweq hwv
          | cons x a3 =>
            have hxv : x ∈ v := by
              rw [hva]
              exact List.mem_append_right w (List.mem_cons_self x a3)
            have hxalpha : isLowerAlpha x = true := hvchars x hxv
            rcases hrest with rfl | ⟨r2, hr2⟩
            · simp at hrest2
            · rw [hr2] at hrest2
              simp only [List.cons_append, List.cons.injEq] at hrest2
              rw [← hrest2.1] at hxalpha
              exact absurd hxalpha (by decide)
        · cases c2 with
          | nil =>
            have hweq : w = v := by simpa using hwv2
            exact absurd hweq hwv
          | cons y c3 =>
            have hlw : l ∈ w := by
              rw [hwv2]
              exact List.mem_append_left _ hlmem
            have hlword : isWordChar l = true := lowerAlnum_wordChar (hw2 l hlw)
            have hyw : y ∈ w := by
              rw [hwv2]
              exact List.mem_append_right _ (List.mem_cons_self y c3)
            have hyword : isWordChar y = true := lowerAlnum_wordChar (hw2 y hyw)
            have hb : bAfter l r = false := by
              rw [hr]
              simp [bAfter, List.cons_append, hlword, hyword]
            simp [tryMatch, htry, hb]
    simp only [firstStop, hmatch]
    exact ih htail hw3t

/-! ### The stopword scanner is the identity on canonical strings -/

theorem stopAux_nil (sws : List (List Char)) (fuel : Nat) (p : Bool) :
    stopAux sws fuel p [] = [] := by
  cases fuel <;> rfl

theorem stopAux_cons_noMatch (sws : List (List Char)) (fuel : Nat) (p : Bool)
    (c : Char) (t : List Char) (h : firstStop sws (c :: t) = none) :
    stopAux sws (fuel + 1) p (c :: t) = c :: stopAux sws fuel (isWordChar c) t := by
  by_cases hp : (p != isWordChar c) = true
  · simp [stopAux, hp, h]
  · have hpf : (p != isWordChar c) = false := by simpa using hp
    simp [stopAux, hpf]

theorem stopAux_cons_inword (sws : List (List Char)) (fuel : Nat) (c : Char)
    (t : List Char) (hc : isWordChar c = true) :
    stopAux sws (fuel + 1) true (c :: t) = c :: stopAux sws fuel true t := by
  have hpf : (true != isWordChar c) = false := by simp [hc]
  simp [stopAux, hpf, hc]

theorem stopAux_inword (sws : List (List Char)) : ∀ (w : List Char),
    (∀ c ∈ w, isWordChar c = true) → ∀ (fuel : Nat) (rest : List Char),
      stopAux sws (w.length + fuel) true (w ++ rest)
        = w ++ stopAux sws fuel true rest := by
  intro w
  induction w with
  | nil => intro _ fuel rest; simp
  | cons c w2 ih =>
    intro hw fuel rest
    have hc : isWordChar c = true := hw c (List.mem_cons_self _ _)
    have harith : (c :: w2).length + fuel = (w2.length + fuel) + 1 := by
      simp [List.length_cons]
      omega
    rw [harith, show (c :: w2) ++ rest = c :: (w2 ++ rest) from rfl]
    rw [stopAux_cons_inword sws (w2.length + fuel) c (w2 ++ rest) hc]
    rw [ih (fun d hd => hw d (List.mem_cons_of_mem _ hd)) fuel rest]
    rfl

theorem stopAux_wordstart (sws : List (List Char)) (hsw : StopwordsOK sws)
    (w : List Char) (hw1 : w ≠ []) (hw2 : ∀ c ∈ w, isLowerAlnum c = true)
    (hw3 : w ∉ sws) (rest : List Char)
    (hrest : rest = [] ∨ ∃ r2, rest = ' ' :: r2) (fuel : Nat) :
    stopAux sws (w.length + fuel) false (w ++ rest)
      = w ++ stopAux sws fuel true rest := by
  obtain ⟨c, w2, rfl⟩ := List.exists_cons_of_ne_nil hw1
  have hc : isLowerAlnum c = true := hw2 c (List.mem_cons_self _ _)
  have hcw : isWordChar c = true := lowerAlnum_wordChar hc
  have hnone : firstStop sws ((c :: w2) ++ rest) = none :=
    firstStop_word_none sws hsw (c :: w2) rest hw2 hw3 hrest
  have harith : (c :: w2).length + fuel = (w2.length + fuel) + 1 := by
    simp [List.length_cons]
    omega
  rw [harith, show (c :: w2) ++ rest = c :: (w2 ++ rest) from rfl]
  rw [stopAux_cons_noMatch sws (w2.length + fuel) false c (w2 ++ rest)
    (by simpa using hnone)]
  rw [hcw]
  rw [stopAux_inword sws w2
    (fun d hd => lowerAlnum_wordChar (hw2 d (List.mem_cons_of_mem _ hd))) fuel rest]
  rfl

theorem stopAux_space (sws : List (List Char)) (hsw : StopwordsOK sws)
    (fuel : Nat) (p : Bool) (rest : List Char) :
    stopAux sws (fuel + 1) p (' ' :: rest) = ' ' :: stopAux sws fuel false rest := by
  have hnone := firstStop_space_none sws hsw rest
  have hw : isWordChar ' ' = false := by decide
  cases p
  · simp [stopAux, hw]
  · simp [stopAux, hw, hnone]

theorem stopAux_joinW (sws : List (List Char)) (hsw : StopwordsOK sws) :
    ∀ (ws : List (List Char)), wordsOK sws ws → ∀ fuel : Nat,
      stopAux sws ((joinW ws).length + fuel) false (joinW ws) = joinW ws := by
  intro ws
  induction ws with
  | nil => intro _ fuel; simp [joinW, stopAux_nil]
  | cons w ws2 ih =>
    intro hws fuel
    obtain ⟨hw1, hw2, hw3, _⟩ := hws w (List.mem_cons_self _ _)
    have hws2 : wordsOK sws ws2 := fun u hu => hws u (List.mem_cons_of_mem _ hu)
    cases ws2 with
    | nil =>
      have hj : joinW [w] = w ++ [] := rfl
      rw [hj]
      have hlen : (w ++ []).length = w.length := by simp
      rw [hlen]
      rw [stopAux_wordstart sws hsw w hw1 hw2 hw3 [] (Or.inl rfl) fuel]
      rw [stopAux_nil]
    | cons v ws3 =>
      have hj : joinW (w :: v :: ws3) = w ++ (' ' :: joinW (v :: ws3)) := rfl
      rw [hj]
      have hlen : (w ++ (' ' :: joinW (v :: ws3))).length + fuel
          = w.length + (((joinW (v :: ws3)).length + fuel) + 1) := by
        simp [List.length_append, List.length_cons]
        omega
      rw [hlen]
      rw [stopAux_wordstart sws hsw w hw1 hw2 hw3 (' ' :: joinW (v :: ws3))
        (Or.inr ⟨joinW (v :: ws3), rfl⟩) (((joinW (v :: ws3)).length + fuel) + 1)]
      rw [stopAux_space sws hsw ((joinW (v :: ws3)).length + fuel) true (joinW (v :: ws3))]
      rw [ih hws2 fuel]

theorem stopSub_joinW (sws : List (List Char)) (hsw : StopwordsOK sws)
    (ws : List (List Char)) (hws : wordsOK sws ws) :
    stopSub sws (joinW ws) = joinW ws := by
  have h := stopAux_joinW sws hsw ws hws 0
  simpa [stopSub] using h

/-! ### The remaining passes are the identity on canonical strings -/

theorem punctSub_id (t : List Char) (h : ∀ c ∈ t, isPunctChar c = false) :
    punctSub t = t := by
  induction t with
  | nil => rfl
  | cons c t ih =>
    have hc := h c (List.mem_cons_self _ _)
    have ht := ih fun d hd => h d (List.mem_cons_of_mem _ hd)
    simp [punctSub, hc, ht]

theorem nonAlnumAux_nil (fuel : Nat) : nonAlnumAux fuel [] = [] := by
  cases fuel <;> rfl

theorem nonAlnumAux_word : ∀ (w : List Char), (∀ c ∈ w, isAsciiAlnum c = true) →
    ∀ (fuel : Nat) (rest : List Char),
      nonAlnumAux (w.length + fuel) (w ++ rest) = w ++ nonAlnumAux fuel rest := by
  intro w
  induction w with
  | nil => intro _ fuel rest; simp
  | cons c w2 ih =>
    intro hw fuel rest
    have hc : isAsciiAlnum c = true := hw c (List.mem_cons_self _ _)
    have harith : (c :: w2).length + fuel = (w2.length + fuel) + 1 := by
      simp [List.length_cons]
      omega
    rw [harith, show (c :: w2) ++ rest = c :: (w2 ++ rest) from rfl]
    simp only [nonAlnumAux, hc, if_true]
    rw [ih (fun d hd => hw d (List.mem_cons_of_mem _ hd)) fuel rest]
    rfl

theorem nonAlnumAux_space (fuel : Nat) (rest : List Char)
    (hrest : rest = [] ∨ ∃ c r2, rest = c :: r2 ∧ isAsciiAlnum c = true) :
    nonAlnumAux (fuel + 1) (' ' :: rest) = ' ' :: nonAlnumAux fuel rest := by
  have hsp : isAsciiAlnum ' ' = false := by decide
  rcases hrest with rfl | ⟨c, r2, rfl, hc⟩
  · simp [nonAlnumAux, hsp]
  · simp [nonAlnumAux, hsp, List.dropWhile_cons, hc]

theorem nonAlnumAux_joinW (sws : List (List Char)) : ∀ (ws : List (List Char)),
    wordsOK sws ws → ∀ fuel : Nat,
      nonAlnumAux ((joinW ws).length + fuel) (joinW ws) = joinW ws := by
  intro ws
  induction ws with
  | nil => intro _ fuel; simp [joinW, nonAlnumAux_nil]
  | cons w ws2 ih =>
    intro hws fuel
    obtain ⟨hw1, hw2, _, _⟩ := hws w (List.mem_cons_self _ _)
    have halnum : ∀ c ∈ w, isAsciiAlnum c = true :=
      fun c hc => lowerAlnum_asciiAlnum (hw2 c hc)
    have hws2 : wordsOK sws ws2 := fun u hu => hws u (List.mem_cons_of_mem _ hu)
    cases ws2 with
    | nil =>
      have hj : joinW [w] = w ++ [] := rfl
      rw [hj]
      have hlen : (w ++ []).length = w.length := by simp
      rw [hlen, nonAlnumAux_word w halnum fuel [], nonAlnumAux_nil]
    | cons v ws3 =>
      have hj : joinW (w :: v :: ws3) = w ++ (' ' :: joinW (v :: ws3)) := rfl
      rw [hj]
      have hlen : (w ++ (' ' :: joinW (v :: ws3))).length + fuel
          = w.length + (((joinW (v :: ws3)).length + fuel) + 1) := by
        simp [List.length_append, List.length_cons]
        omega
      rw [hlen, nonAlnumAux_word w halnum (((joinW (v :: ws3)).length + fuel) + 1)
        (' ' :: joinW (v :: ws3))]
      obtain ⟨hv1, hv2, _, _⟩ := hws2 v (List.mem_cons_self _ _)
      obtain ⟨c, r2, hjv, hcv⟩ := @joinW_cons_head v ws3 hv1
      rw [nonAlnumAux_space ((joinW (v :: ws3)).length + fuel) (joinW (v :: ws3))
        (Or.inr ⟨c, r2, hjv, lowerAlnum_asciiAlnum (hv2 c hcv)⟩)]
      rw [ih hws2 fuel]

theorem nonAlnumSub_joinW (sws : List (List Char)) (ws : List (List Char))
    (hws : wordsOK sws ws) : nonAlnumSub (joinW ws) = joinW ws := by
  have h := nonAlnumAux_joinW sws ws hws 0
  simpa [nonAlnumSub] using h

theorem collapseAux_nil (fuel : Nat) : collapseAux fuel [] = [] := by
  cases fuel <;> rfl

theorem collapseAux_word : ∀ (w : List Char), (∀ c ∈ w, (c == ' ') = false) →
    ∀ (fuel : Nat) (rest : List Char),
      collapseAux (w.length + fuel) (w ++ rest) = w ++ collapseAux fuel rest := by
  intro w
  induction w with
  | nil => intro _ fuel rest; simp
  | cons c w2 ih =>
    intro hw fuel rest
    have hc : (c == ' ') = false := hw c (List.mem_cons_self _ _)
    have harith : (c :: w2).length + fuel = (w2.length + fuel) + 1 := by
      simp [List.length_cons]
      omega
    rw [harith, show (c :: w2) ++ rest = c :: (w2 ++ rest) from rfl]
    simp only [collapseAux, hc, if_false]
    rw [ih (fun d hd => hw d (List.mem_cons_of_mem _ hd)) fuel rest]
    rfl

theorem collapseAux_space (fuel : Nat) (rest : List Char)
    (hrest : rest = [] ∨ ∃ c r2, rest = c :: r2 ∧ (c == ' ') = false) :
    collapseAux (fuel + 1) (' ' :: rest) = ' ' :: collapseAux fuel rest := by
  rcases hrest with rfl | ⟨c, r2, rfl, hc⟩
  · simp [collapseAux]
  · simp [collapseAux, List.dropWhile_cons, hc]

theorem collapseAux_joinW (sws : List (List Char)) : ∀ (ws : List (List Char)),
    wordsOK sws ws → ∀ fuel : Nat,
      collapseAux ((joinW ws).length + fuel) (joinW ws) = joinW ws := by
  intro ws
  induction ws with
  | nil => intro _ fuel; simp [joinW, collapseAux_nil]
  | cons w ws2 ih =>
    intro hws fuel
    obtain ⟨hw1, hw2, _, _⟩ := hws w (List.mem_cons_self _ _)
    have hnsp : ∀ c ∈ w, (c == ' ') = false :=
      fun c hc => lowerAlnum_ne_space (hw2 c hc)
    have hws2 : wordsOK sws ws2 := fun u hu => hws u (List.mem_cons_of_mem _ hu)
    cases ws2 with
    | nil =>
      have hj : joinW [w] = w ++ [] := rfl
      rw [hj]
      have hlen : (w ++ []).length = w.length := by simp
      rw [hlen, collapseAux_word w hnsp fuel [], collapseAux_nil]
    | cons v ws3 =>
      have hj : joinW (w :: v :: ws3) = w ++ (' ' :: joinW (v :: ws3)) := rfl
      rw [hj]
      have hlen : (w ++ (' ' :: joinW (v :: ws3))).length + fuel
          = w.length + (((joinW (v :: ws3)).length + fuel) + 1) := by
        simp [List.length_append, List.length_cons]
        omega
      rw [hlen, collapseAux_word w hnsp (((joinW (v :: ws3)).length + fuel) + 1)
        (' ' :: joinW (v :: ws3))]
      obtain ⟨hv1, hv2, _, _⟩ := hws2 v (List.mem_cons_self _ _)
      obtain ⟨c, r2, hjv, hcv⟩ := @joinW_cons_head v ws3 hv1
      rw [collapseAux_space ((joinW (v :: ws3)).length + fuel) (joinW (v :: ws3))
        (Or.inr ⟨c, r2, hjv, lowerAlnum_ne_space (hv2 c hcv)⟩)]
      rw [ih hws2 fuel]

theorem collapseSub_joinW (sws : List (List Char)) (ws : List (List Char))
    (hws : wordsOK sws ws) : collapseSub (joinW ws) = joinW ws := by
  have h := collapseAux_joinW sws ws hws 0
  simpa [collapseSub] using h

theorem dropWhile_space_id (t : List Char)
    (h : t = [] ∨ ∃ c r, t = c :: r ∧ isSpaceChar c = false) :
    t.dropWhile isSpaceChar = t := by
  rcases h with rfl | ⟨c, r, rfl, hc⟩
  · rfl
  · simp [List.dropWhile_cons, hc]

theorem joinW_reverse_head (sws : List (List Char)) : ∀ (ws : List (List Char)),
    wordsOK sws ws → ws ≠ [] →
      ∃ c r, (joinW ws).reverse = c :: r ∧ isSpaceChar c = false := by
  intro ws
  induction ws with
  | nil => intro _ h; exact absurd rfl h
  | cons w ws2 ih =>
    intro hws _
    obtain ⟨hw1, hw2, _, _⟩ := hws w (List.mem_cons_self _ _)
    have hws2 : wordsOK sws ws2 := fun u hu => hws u (List.mem_cons_of_mem _ hu)
    cases ws2 with
    | nil =>
      have hj : joinW [w] = w ++ [] := rfl
      have hrevne : w.reverse ≠ [] := by
        simpa [List.reverse_eq_nil_iff] using hw1
      obtain ⟨c, r, hcr⟩ := List.exists_cons_of_ne_nil hrevne
      have hcw : c ∈ w := by
        rw [← List.mem_reverse, hcr]
        exact List.mem_cons_self c r
      refine ⟨c, r, ?_, lowerAlnum_not_space (hw2 c hcw)⟩
      rw [hj]
      simpa using hcr
    | cons v ws3 =>
      have hj : joinW (w :: v :: ws3) = w ++ (' ' :: joinW (v :: ws3)) := rfl
      obtain ⟨c, r, hcr, hcs⟩ := ih hws2 (by simp)
      refine ⟨c, r ++ [' '] ++ w.reverse, ?_, hcs⟩
      rw [hj, List.reverse_append, List.reverse_cons, hcr]
      simp

theorem pystrip_joinW (sws : List (List Char)) (ws : List (List Char))
    (hws : wordsOK sws ws) : pystrip (joinW ws) = joinW ws := by
  cases ws with
  | nil => rfl
  | cons w ws2 =>
    obtain ⟨hw1, hw2, _, _⟩ := hws w (List.mem_cons_self _ _)
    obtain ⟨c, rest, hj, hcw⟩ := @joinW_cons_head w ws2 hw1
    have hhead : (joinW (w :: ws2)).dropWhile isSpaceChar = joinW (w :: ws2) :=
      dropWhile_space_id _ (Or.inr ⟨c, rest, hj, lowerAlnum_not_space (hw2 c hcw)⟩)
    obtain ⟨c2, r2, hrev, hc2⟩ := joinW_reverse_head sws (w :: ws2) hws (by simp)
    have htail : (joinW (w :: ws2)).reverse.dropWhile isSpaceChar
        = (joinW (w :: ws2)).reverse :=
      dropWhile_space_id _ (Or.inr ⟨c2, r2, hrev, hc2⟩)
    unfold pystrip
    rw [hhead, htail, List.reverse_reverse]

/-! ### The URL scanner is the identity on canonical strings -/

theorem httpAux_nil (fuel : Nat) : httpAux fuel [] = [] := by
  cases fuel <;> rfl

theorem isHttpStart_false_word (a : Char) (w1 rest : List Char)
    (hhtt : httpPlus (a :: w1) = false)
    (hrest : rest = [] ∨ ∃ r2, rest = ' ' :: r2) :
    isHttpStart ((a :: w1) ++ rest) = false := by
  have hts : (' ' == 't') = false := rfl
  have hps : (' ' == 'p') = false := rfl
  rcases w1 with _ | ⟨b, _ | ⟨c, _ | ⟨d, _ | ⟨e, w5⟩⟩⟩⟩
  · rcases hrest with rfl | ⟨r2, rfl⟩
    · rfl
    · rcases r2 with _ | ⟨x, _ | ⟨y, _ | ⟨z, r3⟩⟩⟩ <;> simp [isHttpStart, hts]
  · rcases hrest with rfl | ⟨r2, rfl⟩
    · rfl
    · rcases r2 with _ | ⟨x, _ | ⟨y, r3⟩⟩ <;> simp [isHttpStart, hts]
  · rcases hrest with rfl | ⟨r2, rfl⟩
    · rfl
    · rcases r2 with _ | ⟨x, r3⟩ <;> simp [isHttpStart, hps]
  · rcases hrest with rfl | ⟨r2, rfl⟩
    · rfl
    · simp [isHttpStart]
      intro _ _ _ _
      decide
  · have h4 : isHttpStart4 (a :: b :: c :: d :: e :: w5) = false := by
      have := hhtt
      simp only [httpPlus, Bool.or_eq_false_iff] at this
      exact this.1
    simp only [isHttpStart4] at h4
    simp only [List.cons_append, isHttpStart]
    rcases Bool.and_eq_false_iff.mp h4 with h | h
    · rcases Bool.and_eq_false_iff.mp h with h2 | h2
      · rcases Bool.and_eq_false_iff.mp h2 with h3 | h3
        · simp [beq_eq_false_iff_ne.mp h3]
        · simp [beq_eq_false_iff_ne.mp h3]
      · simp [beq_eq_false_iff_ne.mp h2]
    · simp [beq_eq_false_iff_ne.mp h]

theorem httpAux_word : ∀ (w : List Char), (∀ c ∈ w, isLowerAlnum c = true) →
    httpPlus w = false → ∀ (fuel : Nat) (rest : List Char),
      (rest = [] ∨ ∃ r2, rest = ' ' :: r2) →
      httpAux (w.length + fuel) (w ++ rest) = w ++ httpAux fuel rest := by
  intro w
  induction w with
  | nil => intro _ _ fuel rest _; simp
  | cons a w1 ih =>
    intro hw hhtt fuel rest hrest
    have hfalse : isHttpStart ((a :: w1) ++ rest) = false :=
      isHttpStart_false_word a w1 rest hhtt hrest
    have htail : httpPlus w1 = false := by
      simp only [httpPlus, Bool.or_eq_false_iff] at hhtt
      cases w1 with
      | nil => rfl
      | cons b w2 => exact hhtt.2
    have harith : (a :: w1).length + fuel = (w1.length + fuel) + 1 := by
      simp [List.length_cons]
      omega
    rw [harith, show (a :: w1) ++ rest = a :: (w1 ++ rest) from rfl]
    have hfalse2 : isHttpStart (a :: (w1 ++ rest)) = false := hfalse
    have hstep : httpAux ((w1.length + fuel) + 1) (a :: (w1 ++ rest))
        = a :: httpAux (w1.length + fuel) (w1 ++ rest) := by
      simp [httpAux, hfalse2]
    rw [hstep, ih (fun d hd => hw d (List.mem_cons_of_mem _ hd)) htail fuel rest hrest]
    rfl

theorem isHttpStart_false_space (rest : List Char) :
    isHttpStart (' ' :: rest) = false := by
  have hsh : (' ' == 'h') = false := rfl
  rcases rest with _ | ⟨x, _ | ⟨y, _ | ⟨z, _ | ⟨u, r4⟩⟩⟩⟩ <;> simp [isHttpStart, hsh]

theorem httpAux_space (fuel : Nat) (rest : List Char) :
    httpAux (fuel + 1) (' ' :: rest) = ' ' :: httpAux fuel rest := by
  simp [httpAux, isHttpStart_false_space]

theorem httpAux_joinW (sws : List (List Char)) : ∀ (ws : List (List Char)),
    wordsOK sws ws → ∀ fuel : Nat,
      httpAux ((joinW ws).length + fuel) (joinW ws) = joinW ws := by
  intro ws
  induction ws with
  | nil => intro _ fuel; simp [joinW, httpAux_nil]
  | cons w ws2 ih =>
    intro hws fuel
    obtain ⟨hw1, hw2, _, hw4⟩ := hws w (List.mem_cons_self _ _)
    have hws2 : wordsOK sws ws2 := fun u hu => hws u (List.mem_cons_of_mem _ hu)
    cases ws2 with
    | nil =>
      have hj : joinW [w] = w ++ [] := rfl
      rw [hj]
      have hlen : (w ++ []).length = w.length := by simp
      rw [hlen, httpAux_word w hw2 hw4 fuel [] (Or.inl rfl), httpAux_nil]
    | cons v ws3 =>
      have hj : joinW (w :: v :: ws3) = w ++ (' ' :: joinW (v :: ws3)) := rfl
      rw [hj]
      have hlen : (w ++ (' ' :: joinW (v :: ws3))).length + fuel
          = w.length + (((joinW (v :: ws3)).length + fuel) + 1) := by
        simp [List.length_append, List.length_cons]
        omega
      rw [hlen, httpAux_word w hw2 hw4 (((joinW (v :: ws3)).length + fuel) + 1)
        (' ' :: joinW (v :: ws3)) (Or.inr ⟨joinW (v :: ws3), rfl⟩)]
      rw [httpAux_space ((joinW (v :: ws3)).length + fuel) (joinW (v :: ws3))]
      rw [ih hws2 fuel]

theorem httpSub_joinW (sws : List (List Char)) (ws : List (List Char))
    (hws : wordsOK sws ws) : httpSub (joinW ws) = joinW ws := by
  have h := httpAux_joinW sws ws hws 0
  simpa [httpSub] using h

/-! ### clean_text is the identity on canonical strings -/

theorem clean_text_joinW_fixed (sws : List (List Char)) (hsw : StopwordsOK sws)
    (ws : List (List Char)) (hws : wordsOK sws ws) :
    clean_text sws (joinW ws) = joinW ws := by
  have hchars : ∀ c ∈ joinW ws, isLowerAlnum c = true ∨ c = ' ' := by
    intro c hc
    rcases mem_joinW hc with ⟨w, hw, hcw⟩ | rfl
    · exact Or.inl ((hws w hw).2.1 c hcw)
    · exact Or.inr rfl
  unfold clean_text
  rw [map_id_of_mem (joinW ws) (fun c hc => by
    rcases hchars c hc with h | rfl
    · exact lowerAlnum_lowerChar h
    · decide)]
  rw [stopSub_joinW sws hsw ws hws]
  rw [punctSub_id (joinW ws) (fun c hc => by
    rcases hchars c hc with h | rfl
    · exact lowerAlnum_not_punct h
    · decide)]
  rw [nonAlnumSub_joinW sws ws hws]
  rw [collapseSub_joinW sws ws hws]
  rw [pystrip_joinW sws ws hws]
  rw [httpSub_joinW sws ws hws]

theorem clean_text_nil (sws : List (List Char)) : clean_text sws [] = [] := rfl

/-! ### Claim C1 (amended): idempotence on canonical outputs -/

/-- C1 amended: `clean_text` is idempotent at every input whose cleaned
output is canonical — empty, or made of nonempty lowercase-alphanumeric
words separated by single spaces, none a stopword and none containing
`http` followed by a further character — for every stopword list of
nonempty lowercase-alphabetic words.  (Unconditional idempotence is
false: see the counterexample, where cleaning splits a token at an
underscore and re-exposes a stopword; URL removal can likewise leave
double spaces.) -/
theorem clean_text_idem_canonical (sws : List (List Char)) (s : List Char)
    (hsw : StopwordsOK sws) (hcanon : Canonical sws (clean_text sws s)) :
    clean_text sws (clean_text sws s) = clean_text sws s := by
  rcases hcanon with hnil | hws
  · rw [hnil]
    exact clean_text_nil sws
  · have hjoin := joinW_splitSp (clean_text sws s)
    conv_lhs => rw [← hjoin]
    rw [clean_text_joinW_fixed sws hsw (splitSp (clean_text sws s)) hws, hjoin]

/-- C1 amended, witness: stopword list `["the"]` and input `"Hi there!"`,
whose cleaned output `"hi there"` is canonical. -/
theorem clean_text_idem_canonical_witness :
    clean_text ["the".data] (clean_text ["the".data] "Hi there!".data)
      = clean_text ["the".data] "Hi there!".data :=
  clean_text_idem_canonical ["the".data] "Hi there!".data
    (by unfold StopwordsOK; decide) (by unfold Canonical wordsOK; decide)

/-- C2 amended, witness: the theorem's per-character part applied at the
concrete output character `'h'`. -/
theorem clean_text_example_cleaned_witness : isPunctChar 'h' = false :=
  clean_text_example_cleaned.2.2 'h' (by decide)

/-- C9 witness: one unmapped tag and one mapped tag, evaluated. -/
theorem preprocess_unmapped_targets_witness :
    (preprocess (fun _ => []) [] [("x", 0)]
        [⟨1, "d", "a".data, "b".data, "y"⟩, ⟨2, "d", "a".data, "b".data, "x"⟩]).targets
      = [none, some 0] :=
  ((preprocess_unmapped_targets (fun _ => []) [] [("x", 0)]
    [⟨1, "d", "a".data, "b".data, "y"⟩, ⟨2, "d", "a".data, "b".data, "x"⟩]).1).trans
    (by decide)
